import Mathlib

/-!
Verification of the wordlist-generation engine of `analyzer.py`
(password wordlist generator).  The Python source is embedded shallowly:
Python strings are `String` (lists of unicode code points), Python sets are
lists considered up to membership (the final `sorted(set(...))` is modelled
by deduplication followed by sorting), and Python's code-point-wise string
comparison is modelled by the executable lexicographic order `pyLt` below.
-/

namespace Analyzer

/-- Python's code-point comparison of strings, on the underlying character
lists: `lexLt a b = true` iff `a` is strictly smaller than `b` in the
lexicographic order on code points (`Char.toNat`). -/
def lexLt : List Char → List Char → Bool
  | _, [] => false
  | [], _ :: _ => true
  | a :: as, b :: bs =>
    if Nat.blt a.toNat b.toNat then true
    else if Nat.blt b.toNat a.toNat then false
    else lexLt as bs

/-- Python `a < b` on strings. -/
def pyLt (a b : String) : Bool := lexLt a.data b.data

/-- Python `a <= b` on strings (total order: `a <= b` iff not `b < a`). -/
def pyLe (a b : String) : Bool := !(pyLt b a)

/-- `pyLt` as a proposition. -/
abbrev pyLtP (a b : String) : Prop := pyLt a b = true

/-- `pyLe` as a proposition. -/
abbrev pyLeP (a b : String) : Prop := pyLe a b = true

/-- The whitespace characters of Python's `str.strip` / `\s` (ASCII range). -/
def pyIsSpace (c : Char) : Bool :=
  c = ' ' || c = '\t' || c = '\n' || c = '\r' || c = '\x0b' || c = '\x0c'

/-- Python `s.strip()`: remove leading and trailing whitespace. -/
def pyStrip (s : String) : String :=
  String.mk (((s.data.dropWhile pyIsSpace).reverse.dropWhile pyIsSpace).reverse)

/-- The separator class of `split_tokens`' regex `[,\s/_\-\.]`. -/
def isSep (c : Char) : Bool :=
  c = ',' || pyIsSpace c || c = '/' || c = '_' || c = '-' || c = '.'

/-- Splits a character list into its maximal runs of characters for which
`p` is false (the accumulator holds the current run, reversed).  This is
`re.split` on one-or-more `p`-characters with empty fragments discarded. -/
def tokensAux (p : Char → Bool) : List Char → List Char → List String
  | [], acc => if acc.isEmpty then [] else [String.mk acc.reverse]
  | c :: rest, acc =>
    if p c then
      if acc.isEmpty then tokensAux p rest []
      else String.mk acc.reverse :: tokensAux p rest []
    else tokensAux p rest (c :: acc)

/-- `split_tokens(s)`: trim, split on runs of separators, drop empties. -/
def split_tokens (s : String) : List String :=
  tokensAux isSep (pyStrip s).data []

/-- The digit groups of a string: `re.split(r"[^\d]", s)` with empty
fragments discarded. -/
def digitGroups (s : String) : List String :=
  tokensAux (fun c => !c.isDigit) s.data []

/-- Python's per-character lower-case mapping, as a (possibly
multi-character) string.  On the modelled domain (ASCII plus the German
sharp s U+00DF) it is `Char.toLower`, always one character; Python's full
Unicode mapping expands a few further characters (e.g. U+0130), which are
outside the modelled domain and left unchanged. -/
def charLower (c : Char) : List Char := [c.toLower]

/-- Python's per-character upper-case mapping, as a (possibly
multi-character) string: ASCII upper-casing, except that U+00DF expands
to two characters (Python: the upper case of a sharp s is "SS"). -/
def charUpper (c : Char) : List Char :=
  if c = 'ß' then ['S', 'S'] else [c.toUpper]

/-- Python's per-character title-case mapping, as a (possibly
multi-character) string: ASCII upper-casing, except that U+00DF expands
to two characters (Python: the title case of a sharp s is "Ss"). -/
def charTitle (c : Char) : List Char :=
  if c = 'ß' then ['S', 's'] else [c.toUpper]

/-- Python `str.lower`. -/
def pyLower (s : String) : String := String.mk (s.data.flatMap charLower)

/-- Python `str.upper`. -/
def pyUpper (s : String) : String := String.mk (s.data.flatMap charUpper)

/-- Python `str.capitalize`: first character title-cased, rest
lower-cased. -/
def pyCapitalize (s : String) : String :=
  match s.data with
  | [] => ""
  | c :: cs => String.mk (charTitle c ++ cs.flatMap charLower)

/-- The cased characters of the modelled domain (ASCII letters and
U+00DF), which Python `str.title` uses to delimit words. -/
def pyIsCased (c : Char) : Bool := c.isAlpha || c = 'ß'

/-- Helper for `pyTitle`: the boolean records whether the previous
character was cased. -/
def pyTitleAux : Bool → List Char → List Char
  | _, [] => []
  | prev, c :: cs =>
    (if pyIsCased c then (if prev then charLower c else charTitle c) else [c]) ++
      pyTitleAux (pyIsCased c) cs

/-- Python `str.title`: the first character of every cased run is
title-cased, the rest of the run lower-cased. -/
def pyTitle (s : String) : String := String.mk (pyTitleAux false s.data)

/-- Python `str.isdigit` (ASCII digits): nonempty and all digits. -/
def pyIsDigit (s : String) : Bool := !s.data.isEmpty && s.data.all Char.isDigit

/-- The leet substitution table `LEET_MAP` of analyzer.py. -/
def LEET_MAP (c : Char) : Option Char :=
  if c = 'a' then some '4'
  else if c = 'b' then some '8'
  else if c = 'e' then some '3'
  else if c = 'g' then some '9'
  else if c = 'i' then some '1'
  else if c = 'l' then some '1'
  else if c = 'o' then some '0'
  else if c = 's' then some '5'
  else if c = 't' then some '7'
  else if c = 'z' then some '2'
  else none

/-- `COMMON_SUFFIXES` of analyzer.py. -/
def COMMON_SUFFIXES : List String :=
  ["!", "@", "#", "$", "123", "1234", "12345", "1", "01", "007", "2024", "2025"]

/-- `COMMON_PREFIXES` of analyzer.py. -/
def COMMON_PREFIXES : List String := ["!", "@", "#", "$"]

/-- The per-position alternative lists of `l33tify`: the original character
plus, where `LEET_MAP` applies, the substituted digit. -/
def leetOptions (cs : List Char) : List (List Char) :=
  cs.map (fun c => match LEET_MAP c with | some r => [c, r] | none => [c])

/-- `itertools.product(*options)`: all ways to pick one character from each
alternative list. -/
def prodCombos : List (List Char) → List (List Char)
  | [] => [[]]
  | o :: os => o.flatMap (fun c => (prodCombos os).map (fun cs => c :: cs))

/-- The cross-product part of `l33tify` on an (already lower-cased) word. -/
def leetCross (w : String) : List String :=
  (prodCombos (leetOptions w.data)).map (fun cs => String.mk cs)

/-- `l33tify(word)` of analyzer.py: lower-case, start from the word itself,
add every combination of per-character leet substitutions, and add the
three case variants. -/
def l33tify (w : String) : List String :=
  let word := pyLower w
  word :: (leetCross word ++ [pyCapitalize word, pyUpper word, pyTitle word])

/-- `itertools.permutations(words, 2)`: every ordered pair of elements at
distinct positions. -/
def pairsTwo : List String → List (String × String)
  | [] => []
  | x :: xs => xs.map (fun y => (x, y)) ++ xs.map (fun y => (y, x)) ++ pairsTwo xs

/-- The separators used by `mix`. -/
def mixSeps : List String := ["", ".", "_", "-", "@"]

/-- `mix(words)` of analyzer.py: leet variants of each word, plain pairwise
concatenations in both orders, and pairwise concatenations through each
separator. -/
def mix (words0 : List String) : List String :=
  let words := words0.filter (fun w => w ≠ "")
  (words.flatMap (fun w => l33tify w)) ++
    ((pairsTwo words).flatMap (fun q => [q.1 ++ q.2, q.2 ++ q.1])) ++
    ((pairsTwo words).flatMap (fun q => mixSeps.map (fun s => q.1 ++ s ++ q.2)))

/-- `sprinkle(words)` of analyzer.py: every word with each common suffix
appended and each common prefix prepended. -/
def sprinkle (words : List String) : List String :=
  words.flatMap (fun w =>
    COMMON_SUFFIXES.map (fun suf => w ++ suf) ++
      COMMON_PREFIXES.map (fun pre => pre ++ w))

/-- `year_range(start, end)` of analyzer.py:
`[str(y) for y in range(start, end+1)]`. -/
def year_range (start e : Nat) : List String :=
  (List.range' start (e + 1 - start)).map (fun y => toString y)

/-- The year set built by `gen_wordlist` (lines 91-95): the default range
`year_range(1990, currentYear+1)` plus, when the extra-years hint is
nonempty, its digit-only tokens. -/
def yearsOf (currentYear : Nat) (extra_years : String) : List String :=
  year_range 1990 (currentYear + 1) ++
    (if extra_years ≠ "" then (split_tokens extra_years).filter (fun y => pyIsDigit y)
     else [])

/-- The token list of `gen_wordlist` (lines 74-87): tokens of name, pet and
keywords, then the digit groups of the stripped date of birth plus the
trailing two digits of every 4-digit group. -/
def hintTokens (name pet dob keywords : String) : List String :=
  split_tokens name ++ split_tokens pet ++ split_tokens keywords ++
    (let d := pyStrip dob
     if d ≠ "" then
       let ds := digitGroups d
       ds ++ (ds.filter (fun g => g.length = 4)).map
         (fun g => String.mk (g.data.drop (g.data.length - 2)))
     else [])

/-- `base = set(tokens)` of `gen_wordlist` (line 89). -/
def basePool (name pet dob keywords : String) : List String :=
  (hintTokens name pet dob keywords).dedup

/-- `pool = mix(base); pool |= sprinkle(pool)` of `gen_wordlist`
(lines 97-98). -/
def candPool (name pet dob keywords : String) : List String :=
  mix (basePool name pet dob keywords) ++ sprinkle (mix (basePool name pet dob keywords))

/-- `sorted(years)` as iterated by the year loop (line 102). -/
def sortedYears (currentYear : Nat) (extra_years : String) : List String :=
  List.insertionSort pyLeP (yearsOf currentYear extra_years)

/-- The strings added by the year loop of `gen_wordlist` (lines 100-104):
`w+y` and `y+w` for every pool candidate `w` and year `y`. -/
def yearBlock (currentYear : Nat) (name pet dob keywords extra_years : String) :
    List String :=
  (candPool name pet dob keywords).flatMap (fun w =>
    (sortedYears currentYear extra_years).flatMap (fun y => [w ++ y, y ++ w]))

/-- The full candidate multiset of `gen_wordlist` before deduplication and
sorting: the pool, the year-injected strings, and the raw base tokens
(lines 100-106). -/
def allCandidates (currentYear : Nat) (name pet dob keywords extra_years : String) :
    List String :=
  (candPool name pet dob keywords ++
      yearBlock currentYear name pet dob keywords extra_years) ++
    basePool name pet dob keywords

/-- `gen_wordlist` of analyzer.py: the deduplicated candidate set, sorted
by Python's string order (line 107, `sorted(with_years)`).  The current
year (`datetime.datetime.now().year`) is passed explicitly. -/
def gen_wordlist (currentYear : Nat) (name pet dob keywords extra_years : String) :
    List String :=
  List.insertionSort pyLeP
    (allCandidates currentYear name pet dob keywords extra_years).dedup

/-- The size cap of `cmd_gen` (lines 135-136):
`if args.max and len(words) > args.max: words = words[:args.max]`. -/
def capWords (m : Int) (words : List String) : List String :=
  if m ≠ 0 ∧ (words.length : Int) > m then words.take m.toNat else words

/-- The word list written by `cmd_gen` (lines 132-139). -/
def cmd_gen_words (currentYear : Nat) (name pet dob keywords extra_years : String)
    (m : Int) : List String :=
  capWords m (gen_wordlist currentYear name pet dob keywords extra_years)

/-! ### Basic theory of the code-point lexicographic order -/

theorem char_toNat_inj {c d : Char} (h : c.toNat = d.toNat) : c = d := by
  apply Char.ext
  apply UInt32.ext
  exact h

theorem lexLt_self : ∀ l : List Char, lexLt l l = false
  | [] => rfl
  | c :: cs => by
    simp only [lexLt, Nat.blt_eq, lt_irrefl, if_false]
    exact lexLt_self cs

theorem lexLt_asymm : ∀ a b : List Char, lexLt a b = true → lexLt b a = false
  | [], [], h => by simp [lexLt] at h
  | [], _ :: _, _ => rfl
  | _ :: _, [], h => by simp [lexLt] at h
  | x :: xs, y :: ys, h => by
    simp only [lexLt, Nat.blt_eq] at h ⊢
    by_cases hxy : x.toNat < y.toNat
    · have hyx : ¬ y.toNat < x.toNat := by omega
      simp [hyx, hxy]
    · by_cases hyx : y.toNat < x.toNat
      · simp [hxy, hyx] at h
      · simp [hxy, hyx] at h ⊢
        exact lexLt_asymm xs ys h

theorem lexLt_eq_of_not : ∀ a b : List Char,
    lexLt a b = false → lexLt b a = false → a = b
  | [], [], _, _ => rfl
  | [], _ :: _, h, _ => by simp [lexLt] at h
  | _ :: _, [], _, h => by simp [lexLt] at h
  | x :: xs, y :: ys, h1, h2 => by
    simp only [lexLt, Nat.blt_eq] at h1 h2
    by_cases hxy : x.toNat < y.toNat
    · simp [hxy] at h1
    · by_cases hyx : y.toNat < x.toNat
      · simp [hyx, hxy] at h2
      · simp [hxy, hyx] at h1 h2
        have hc : x = y := char_toNat_inj (by omega)
        rw [hc, lexLt_eq_of_not xs ys h1 h2]

theorem lexLt_trans : ∀ a b c : List Char,
    lexLt a b = true → lexLt b c = true → lexLt a c = true
  | [], [], _, h, _ => by simp [lexLt] at h
  | [], _ :: _, [], _, h => by simp [lexLt] at h
  | [], _ :: _, _ :: _, _, _ => rfl
  | _ :: _, [], _, h, _ => by simp [lexLt] at h
  | _ :: _, _ :: _, [], _, h => by simp [lexLt] at h
  | x :: xs, y :: ys, z :: zs, h1, h2 => by
    simp only [lexLt, Nat.blt_eq] at h1 h2 ⊢
    by_cases hxy : x.toNat < y.toNat
    · by_cases hyz : y.toNat < z.toNat
      · have hxz : x.toNat < z.toNat := by omega
        simp [hxz]
      · by_cases hzy : z.toNat < y.toNat
        · simp [hyz, hzy] at h2
        · have hxz : x.toNat < z.toNat := by omega
          simp [hxz]
    · by_cases hyx : y.toNat < x.toNat
      · simp [hxy, hyx] at h1
      · simp [hxy, hyx] at h1
        by_cases hyz : y.toNat < z.toNat
        · have hxz : x.toNat < z.toNat := by omega
          simp [hxz]
        · by_cases hzy : z.toNat < y.toNat
          · simp [hyz, hzy] at h2
          · simp [hyz, hzy] at h2
            have hxz : ¬ x.toNat < z.toNat := by omega
            have hzx : ¬ z.toNat < x.toNat := by omega
            simp [hxz, hzx]
            exact lexLt_trans xs ys zs h1 h2

theorem lexLt_append_not : ∀ (a x y : List Char),
    lexLt a x = false → lexLt (a ++ y) x = false
  | [], [], y, _ => by simp [lexLt]
  | [], _ :: _, _, h => by simp [lexLt] at h
  | _ :: _, [], _, _ => by simp [lexLt]
  | c :: cs, d :: ds, y, h => by
    simp only [lexLt, Nat.blt_eq, List.cons_append] at h ⊢
    by_cases hcd : c.toNat < d.toNat
    · simp [hcd] at h
    · by_cases hdc : d.toNat < c.toNat
      · simp [hcd, hdc]
      · simp [hcd, hdc] at h ⊢
        exact lexLt_append_not cs ds y h

theorem lexLt_append_left : ∀ (p u v : List Char),
    lexLt (p ++ u) (p ++ v) = lexLt u v
  | [], _, _ => rfl
  | c :: cs, u, v => by
    simp only [List.cons_append, lexLt, Nat.blt_eq, lt_irrefl, if_false]
    exact lexLt_append_left cs u v

theorem pyLt_asymm {a b : String} (h : pyLt a b = true) : pyLt b a = false :=
  lexLt_asymm _ _ h

theorem pyEq_of_not_lt {a b : String} (h1 : pyLt a b = false)
    (h2 : pyLt b a = false) : a = b :=
  String.ext (lexLt_eq_of_not _ _ h1 h2)

theorem pyLt_of_le_ne {a b : String} (h : pyLeP a b) (hne : a ≠ b) : pyLtP a b := by
  have hba : pyLt b a = false := by
    cases hv : pyLt b a
    · rfl
    · rw [pyLeP, pyLe, hv] at h
      simp at h
  cases hab : pyLt a b
  · exact absurd (pyEq_of_not_lt hab hba) hne
  · exact hab

instance : IsTotal String pyLeP := by
  constructor
  intro a b
  cases hba : pyLt b a
  · left
    simp [pyLeP, pyLe, hba]
  · right
    simp [pyLeP, pyLe, pyLt_asymm hba]

instance : IsTrans String pyLeP := by
  constructor
  intro a b c hab hbc
  simp only [pyLeP, pyLe, Bool.not_eq_true'] at hab hbc ⊢
  cases hca : pyLt c a
  · rfl
  · exfalso
    cases hbct : pyLt b c
    · have hbceq : b = c := pyEq_of_not_lt hbct hbc
      rw [hbceq] at hab
      rw [hab] at hca
      exact Bool.false_ne_true hca
    · have hba : pyLt b a = true := lexLt_trans _ _ _ hbct hca
      rw [hab] at hba
      exact Bool.false_ne_true hba

theorem sorted_lt_of_le {l : List String} (h : l.Sorted pyLeP) (hn : l.Nodup) :
    l.Sorted pyLtP :=
  (h.and hn).imp (fun hab => pyLt_of_le_ne hab.1 hab.2)

/-! ### Structural facts about the generation pipeline -/

theorem gen_sorted_le (cy : Nat) (n p d k e : String) :
    (gen_wordlist cy n p d k e).Sorted pyLeP :=
  List.sorted_insertionSort pyLeP _

theorem gen_nodup (cy : Nat) (n p d k e : String) :
    (gen_wordlist cy n p d k e).Nodup :=
  ((List.perm_insertionSort pyLeP _).symm).nodup
    (List.nodup_dedup (allCandidates cy n p d k e))

theorem gen_sorted_lt (cy : Nat) (n p d k e : String) :
    (gen_wordlist cy n p d k e).Sorted pyLtP :=
  sorted_lt_of_le (gen_sorted_le cy n p d k e) (gen_nodup cy n p d k e)

theorem mem_gen_iff {cy : Nat} {n p d k e x : String} :
    x ∈ gen_wordlist cy n p d k e ↔ x ∈ allCandidates cy n p d k e := by
  rw [gen_wordlist, List.mem_insertionSort, List.mem_dedup]

theorem countP_gen_le (cy : Nat) (n p d k e : String) (q : String → Bool) :
    (gen_wordlist cy n p d k e).countP q ≤ (allCandidates cy n p d k e).countP q := by
  rw [gen_wordlist, (List.perm_insertionSort pyLeP _).countP_eq]
  exact (List.dedup_sublist _).countP_le q

/-- In a strictly sorted list, an element whose strict predecessors number
fewer than `M` lies among the first `M` entries. -/
theorem mem_take_of_countP_lt :
    ∀ {l : List String} {x : String} {M : Nat}, l.Sorted pyLtP → x ∈ l →
      l.countP (fun y => pyLt y x) < M → x ∈ l.take M
  | [], x, M, _, hx, _ => by cases hx
  | a :: t, x, M, hs, hx, hc => by
    rw [List.sorted_cons] at hs
    obtain ⟨m, rfl⟩ : ∃ m, M = m + 1 := ⟨M - 1, by omega⟩
    rcases List.mem_cons.mp hx with rfl | hxt
    · exact List.mem_cons_self _ _
    · have ha : pyLt a x = true := hs.1 x hxt
      rw [List.countP_cons] at hc
      simp only [ha, if_true] at hc
      have hct : t.countP (fun y => pyLt y x) < m := by omega
      exact List.mem_cons_of_mem a (mem_take_of_countP_lt hs.2 hxt hct)

theorem mem_capWords_of_mem_take {m : Int} {l : List String} {x : String}
    (h : x ∈ l.take m.toNat) : x ∈ capWords m l := by
  rw [capWords]
  split
  · exact h
  · exact l.take_subset _ h

theorem mem_capWords_of_no_trunc {m : Int} {l : List String} {x : String}
    (hm : (l.length : Int) ≤ m) (h : x ∈ l) : x ∈ capWords m l := by
  rw [capWords]
  split
  · exfalso
    omega
  · exact h

/-! ### Tokenizer facts -/

theorem tokensAux_mem {p : Char → Bool} :
    ∀ (cs acc : List Char) (t : String), (∀ c ∈ acc, p c = false) →
      t ∈ tokensAux p cs acc → t.data ≠ [] ∧ ∀ c ∈ t.data, p c = false
  | [], acc, t, hacc, ht => by
    rw [tokensAux] at ht
    split at ht
    · cases ht
    · rename_i hne
      rw [List.mem_singleton] at ht
      subst ht
      refine ⟨?_, ?_⟩
      · intro hd
        rw [List.reverse_eq_nil_iff.mp hd] at hne
        simp at hne
      · intro c hc
        exact hacc c (List.mem_reverse.mp hc)
  | c :: rest, acc, t, hacc, ht => by
    rw [tokensAux] at ht
    by_cases hp : p c
    · rw [if_pos hp] at ht
      split at ht
      · exact tokensAux_mem rest [] t (by simp) ht
      · rename_i hne
        rcases List.mem_cons.mp ht with rfl | ht'
        · refine ⟨?_, ?_⟩
          · intro hd
            rw [List.reverse_eq_nil_iff.mp hd] at hne
            simp at hne
          · intro c' hc'
            exact hacc c' (List.mem_reverse.mp hc')
        · exact tokensAux_mem rest [] t (by simp) ht'
    · rw [if_neg hp] at ht
      refine tokensAux_mem rest (c :: acc) t ?_ ht
      intro c' hc'
      rcases List.mem_cons.mp hc' with rfl | hc''
      · exact Bool.eq_false_iff.mpr hp
      · exact hacc c' hc''

/-- C8: every token returned by `split_tokens` is non-empty and contains no
separator character (the input is trimmed first and empty fragments are
discarded). -/
theorem C8_split_tokens_clean (s t : String) (ht : t ∈ split_tokens s) :
    t ≠ "" ∧ ∀ c ∈ t.data, isSep c = false := by
  have h := tokensAux_mem (pyStrip s).data [] t (by simp) ht
  refine ⟨?_, h.2⟩
  intro he
  subst he
  exact h.1 rfl

theorem C8_witness :
    ("a" ∈ split_tokens "a,b") ∧ ("a" : String) ≠ "" ∧ ∀ c ∈ ("a" : String).data, isSep c = false :=
  ⟨by decide, C8_split_tokens_clean "a,b" "a" (by decide)⟩

/-- C7: with all five hint strings empty the engine returns the empty
wordlist, for every current year; the call is total (no exception is
modelled because every stage is a total function), and the default year
range contributes nothing on its own. -/
theorem C7_empty_hints (cy : Nat) : gen_wordlist cy "" "" "" "" "" = [] := rfl

/-- C10: with name, pet, dob and keywords empty the engine returns the
empty wordlist regardless of the extra-years hint: year strings are only
ever attached to pool candidates and never appear standalone. -/
theorem C10_years_not_standalone (cy : Nat) (extra : String) :
    gen_wordlist cy "" "" "" "" extra = [] := rfl

/-- C6: the year set used for year injection consists of exactly the
decimal renderings of the integers in `[1990, currentYear+1]` together
with the digit-only tokens of the extra-years hint; tokens with a
non-digit character are silently absent. -/
theorem C6_year_set (cy : Nat) (extra y : String) :
    y ∈ yearsOf cy extra ↔
      ((∃ nn : Nat, 1990 ≤ nn ∧ nn ≤ cy + 1 ∧ y = toString nn)
        ∨ (y ∈ split_tokens extra ∧ pyIsDigit y = true)) := by
  rw [yearsOf, List.mem_append]
  constructor
  · rintro (hy | hy)
    · left
      rw [year_range, List.mem_map] at hy
      obtain ⟨nn, hnn, rfl⟩ := hy
      rw [List.mem_range'] at hnn
      obtain ⟨i, hi, rfl⟩ := hnn
      exact ⟨1990 + 1 * i, by omega, by omega, rfl⟩
    · split at hy
      · rw [List.mem_filter] at hy
        exact Or.inr hy
      · cases hy
  · rintro (⟨nn, h1, h2, rfl⟩ | ⟨hmem, hdig⟩)
    · left
      rw [year_range, List.mem_map]
      refine ⟨nn, ?_, rfl⟩
      rw [List.mem_range']
      exact ⟨nn - 1990, by omega, by omega⟩
    · right
      have hne : extra ≠ "" := by
        intro he
        subst he
        cases hmem
      rw [if_pos hne, List.mem_filter]
      exact ⟨hmem, hdig⟩

/-! ### Leet expander facts -/

theorem self_mem_prodCombos : ∀ cs : List Char, cs ∈ prodCombos (leetOptions cs)
  | [] => List.mem_singleton.mpr rfl
  | c :: cs => by
    simp only [leetOptions, List.map_cons, prodCombos, List.mem_flatMap]
    refine ⟨c, ?_, List.mem_map.mpr ⟨cs, ?_, rfl⟩⟩
    · cases h : LEET_MAP c <;> simp [h]
    · have h := self_mem_prodCombos cs
      rw [leetOptions] at h
      exact h

theorem prodCombos_singletons : ∀ cs : List Char, (∀ c ∈ cs, LEET_MAP c = none) →
    prodCombos (leetOptions cs) = [cs]
  | [], _ => rfl
  | c :: cs, h => by
    have hc : LEET_MAP c = none := h c (List.mem_cons_self c cs)
    have ih := prodCombos_singletons cs (fun d hd => h d (List.mem_cons_of_mem c hd))
    rw [leetOptions] at ih ⊢
    simp only [List.map_cons, prodCombos, hc, ih]
    rfl

theorem prodCombos_length : ∀ (opts : List (List Char)) (cs : List Char),
    cs ∈ prodCombos opts → cs.length = opts.length
  | [], cs, h => by
    rw [prodCombos, List.mem_singleton] at h
    subst h
    rfl
  | o :: os, cs, h => by
    rw [prodCombos, List.mem_flatMap] at h
    obtain ⟨c, _, h⟩ := h
    rw [List.mem_map] at h
    obtain ⟨cs', hcs', rfl⟩ := h
    simp [prodCombos_length os cs' hcs']

theorem flatMap_length_ones {f : Char → List Char} :
    ∀ cs : List Char, (∀ c ∈ cs, (f c).length = 1) →
      (cs.flatMap f).length = cs.length
  | [], _ => rfl
  | c :: cs, h => by
    rw [List.flatMap_cons, List.length_append, h c (List.mem_cons_self c cs),
      flatMap_length_ones cs (fun d hd => h d (List.mem_cons_of_mem c hd)),
      List.length_cons]
    omega

theorem charLower_length (c : Char) : (charLower c).length = 1 := rfl

theorem charUpper_length_of_ne {c : Char} (h : c ≠ 'ß') :
    (charUpper c).length = 1 := by
  rw [charUpper, if_neg h]
  rfl

theorem charTitle_length_of_ne {c : Char} (h : c ≠ 'ß') :
    (charTitle c).length = 1 := by
  rw [charTitle, if_neg h]
  rfl

theorem pyLower_length (s : String) : (pyLower s).length = s.length := by
  show (s.data.flatMap charLower).length = s.length
  rw [flatMap_length_ones s.data (fun c _ => charLower_length c)]
  rfl

theorem toLower_ne_ss {c : Char} (h : c.toNat < 128) : Char.toLower c ≠ 'ß' := by
  have key : ∀ n : Nat, n < 128 → Char.toLower (Char.ofNat n) ≠ 'ß' := by decide
  have hc := key c.toNat h
  rwa [Char.ofNat_toNat] at hc

theorem mem_pyLower_ne_ss {w : String} (h : ∀ c ∈ w.data, c.toNat < 128) :
    ∀ c ∈ (pyLower w).data, c ≠ 'ß' := by
  intro c' hc'
  have hm : c' ∈ w.data.flatMap charLower := hc'
  rw [List.mem_flatMap] at hm
  obtain ⟨c, hc, hm⟩ := hm
  rw [charLower, List.mem_singleton] at hm
  subst hm
  exact toLower_ne_ss (h c hc)

theorem pyUpper_length_of_ne {s : String} (h : ∀ c ∈ s.data, c ≠ 'ß') :
    (pyUpper s).length = s.length := by
  show (s.data.flatMap charUpper).length = s.length
  rw [flatMap_length_ones s.data (fun c hc => charUpper_length_of_ne (h c hc))]
  rfl

theorem pyCapitalize_length_of_ne {s : String} (h : ∀ c ∈ s.data, c ≠ 'ß') :
    (pyCapitalize s).length = s.length := by
  rw [pyCapitalize]
  split
  · rename_i heq
    have hs : s.length = 0 := by
      show s.data.length = 0
      rw [heq]
      rfl
    rw [hs]
    rfl
  · rename_i c cs heq
    show (charTitle c ++ cs.flatMap charLower).length = s.length
    have hc : c ≠ 'ß' := h c (by rw [heq]; exact List.mem_cons_self c cs)
    have hs : s.length = cs.length + 1 := by
      show s.data.length = cs.length + 1
      rw [heq]
      rfl
    rw [List.length_append, charTitle_length_of_ne hc,
      flatMap_length_ones cs (fun d _ => charLower_length d), hs]
    omega

theorem pyTitleAux_length_of_ne :
    ∀ (b : Bool) (cs : List Char), (∀ c ∈ cs, c ≠ 'ß') →
      (pyTitleAux b cs).length = cs.length
  | _, [], _ => rfl
  | b, c :: cs, h => by
    have hc : c ≠ 'ß' := h c (List.mem_cons_self c cs)
    have hlen1 :
        (if pyIsCased c then (if b then charLower c else charTitle c) else [c]).length
          = 1 := by
      by_cases h1 : pyIsCased c = true
      · rw [if_pos h1]
        by_cases h2 : b = true
        · rw [if_pos h2, charLower_length]
        · rw [if_neg h2, charTitle_length_of_ne hc]
      · rw [if_neg h1]
        rfl
    rw [pyTitleAux, List.length_append, hlen1,
      pyTitleAux_length_of_ne (pyIsCased c) cs
        (fun d hd => h d (List.mem_cons_of_mem c hd)),
      List.length_cons]
    omega

theorem pyTitle_length_of_ne {s : String} (h : ∀ c ∈ s.data, c ≠ 'ß') :
    (pyTitle s).length = s.length := by
  show (pyTitleAux false s.data).length = s.length
  rw [pyTitleAux_length_of_ne false s.data h]
  rfl

/-- C3: `l33tify` first lower-cases its argument and returns exactly the
union of (i) the cross-product of per-position alternatives (original
character, or mapped digit where `LEET_MAP` applies) and (ii) the three
case variants; and on a word with no substitutable character it returns
exactly the lower, capitalized, upper and title variants. -/
theorem C3_l33tify_exact :
    (∀ w x : String, x ∈ l33tify w ↔
      (x ∈ leetCross (pyLower w) ∨ x = pyCapitalize (pyLower w)
        ∨ x = pyUpper (pyLower w) ∨ x = pyTitle (pyLower w)))
    ∧ (∀ w : String, (∀ c ∈ (pyLower w).data, LEET_MAP c = none) →
        ∀ x : String, x ∈ l33tify w ↔
          (x = pyLower w ∨ x = pyCapitalize (pyLower w)
            ∨ x = pyUpper (pyLower w) ∨ x = pyTitle (pyLower w))) := by
  have hself : ∀ v : String, v ∈ leetCross v := by
    intro v
    rw [leetCross, List.mem_map]
    exact ⟨v.data, self_mem_prodCombos v.data, rfl⟩
  have hmain : ∀ w x : String, x ∈ l33tify w ↔
      (x ∈ leetCross (pyLower w) ∨ x = pyCapitalize (pyLower w)
        ∨ x = pyUpper (pyLower w) ∨ x = pyTitle (pyLower w)) := by
    intro w x
    rw [l33tify]
    simp only [List.mem_cons, List.mem_append, List.not_mem_nil, or_false]
    constructor
    · rintro (rfl | h | rfl | rfl | rfl)
      · exact Or.inl (hself _)
      · exact Or.inl h
      · exact Or.inr (Or.inl rfl)
      · exact Or.inr (Or.inr (Or.inl rfl))
      · exact Or.inr (Or.inr (Or.inr rfl))
    · rintro (h | rfl | rfl | rfl)
      · exact Or.inr (Or.inl h)
      · exact Or.inr (Or.inr (Or.inl rfl))
      · exact Or.inr (Or.inr (Or.inr (Or.inl rfl)))
      · exact Or.inr (Or.inr (Or.inr (Or.inr rfl)))
  refine ⟨hmain, ?_⟩
  intro w hno x
  rw [hmain w x]
  have hcross : leetCross (pyLower w) = [pyLower w] := by
    rw [leetCross, prodCombos_singletons _ hno]
    simp
  rw [hcross, List.mem_singleton]

theorem C3_witness :
    (∀ c ∈ (Analyzer.pyLower "xy").data, LEET_MAP c = none)
    ∧ (("Xy" : String) ∈ l33tify "xy" ↔
        (("Xy" : String) = pyLower "xy" ∨ ("Xy" : String) = pyCapitalize (pyLower "xy")
          ∨ ("Xy" : String) = pyUpper (pyLower "xy")
          ∨ ("Xy" : String) = pyTitle (pyLower "xy"))) :=
  ⟨by decide, C3_l33tify_exact.2 "xy" (by decide) "Xy"⟩

/-- C9 counterexample: Python's case mappings are not length-preserving:
the upper case of the sharp s U+00DF is the two-character string "SS"
(and its title case is "Ss"), so `l33tify "ß"` contains "SS" of length 2
while the input word has length 1 — refuting, at the word "ß", the claim
that every string in the result has exactly the length of the input. -/
theorem C9_counterexample :
    ("SS" ∈ l33tify "ß") ∧ ("SS" : String).length ≠ ("ß" : String).length :=
  ⟨by decide, by decide⟩

/-- C9 (amended): for every word w consisting of ASCII characters (whose
case mappings are all single characters), every string produced by
`l33tify w` has exactly the length of w: each leet substitution replaces
one character by one character and the case transforms are then
character-wise. -/
theorem C9_l33tify_length (w x : String) (hascii : ∀ c ∈ w.data, c.toNat < 128)
    (h : x ∈ l33tify w) : x.length = w.length := by
  have hne : ∀ c ∈ (pyLower w).data, c ≠ 'ß' := mem_pyLower_ne_ss hascii
  rw [l33tify] at h
  simp only [List.mem_cons, List.mem_append, List.not_mem_nil, or_false] at h
  have hlow : (pyLower w).length = w.length := pyLower_length w
  rcases h with rfl | h | rfl | rfl | rfl
  · exact hlow
  · rw [leetCross, List.mem_map] at h
    obtain ⟨cs, hcs, rfl⟩ := h
    have h1 : cs.length = (leetOptions (pyLower w).data).length :=
      prodCombos_length _ cs hcs
    have h2 : (leetOptions (pyLower w).data).length = (pyLower w).data.length := by
      rw [leetOptions, List.length_map]
    rw [← hlow]
    show cs.length = (pyLower w).length
    rw [h1, h2]
    rfl
  · rw [pyCapitalize_length_of_ne hne, hlow]
  · rw [pyUpper_length_of_ne hne, hlow]
  · rw [pyTitle_length_of_ne hne, hlow]

theorem C9_witness :
    (∀ c ∈ ("ab" : String).data, c.toNat < 128)
    ∧ (("4b" : String) ∈ l33tify "ab")
    ∧ ("4b" : String).length = ("ab" : String).length :=
  ⟨by decide, by decide, C9_l33tify_length "ab" "4b" (by decide) (by decide)⟩

/-! ### Combiner facts -/

theorem append_empty_mid (u v : String) : u ++ "" ++ v = u ++ v := by
  apply String.ext
  simp [String.data_append]

theorem mem_mix_pair {a b x : String} (ha : a ≠ "") (hb : b ≠ "") :
    x ∈ mix [a, b] ↔
      (x ∈ l33tify a ∨ x ∈ l33tify b
        ∨ ∃ s ∈ mixSeps, x = a ++ s ++ b ∨ x = b ++ s ++ a) := by
  have hfilter : List.filter (fun w => w ≠ "") [a, b] = [a, b] := by
    rw [List.filter_eq_self]
    intro w hw
    rcases List.mem_cons.mp hw with rfl | hw'
    · simpa using ha
    · rcases List.mem_cons.mp hw' with rfl | hw''
      · simpa using hb
      · cases hw''
  have hpairs : pairsTwo [a, b] = [(a, b), (b, a)] := rfl
  simp only [mix, hfilter, hpairs]
  constructor
  · intro h
    rcases List.mem_append.mp h with h12 | h3
    · rcases List.mem_append.mp h12 with h1 | h2
      · rcases List.mem_flatMap.mp h1 with ⟨w, hw, hx⟩
        rcases List.mem_cons.mp hw with rfl | hw'
        · exact Or.inl hx
        · rcases List.mem_cons.mp hw' with rfl | hw''
          · exact Or.inr (Or.inl hx)
          · cases hw''
      · rcases List.mem_flatMap.mp h2 with ⟨q, hq, hx⟩
        have hsep : ("" : String) ∈ mixSeps := by decide
        rcases List.mem_cons.mp hq with rfl | hq'
        · rcases List.mem_cons.mp hx with rfl | hx'
          · exact Or.inr (Or.inr ⟨"", hsep, Or.inl (append_empty_mid a b).symm⟩)
          · rcases List.mem_cons.mp hx' with rfl | hx''
            · exact Or.inr (Or.inr ⟨"", hsep, Or.inr (append_empty_mid b a).symm⟩)
            · cases hx''
        · rcases List.mem_cons.mp hq' with rfl | hq''
          · rcases List.mem_cons.mp hx with rfl | hx'
            · exact Or.inr (Or.inr ⟨"", hsep, Or.inr (append_empty_mid b a).symm⟩)
            · rcases List.mem_cons.mp hx' with rfl | hx''
              · exact Or.inr (Or.inr ⟨"", hsep, Or.inl (append_empty_mid a b).symm⟩)
              · cases hx''
          · cases hq''
    · rcases List.mem_flatMap.mp h3 with ⟨q, hq, hx⟩
      rcases List.mem_cons.mp hq with rfl | hq'
      · rcases List.mem_map.mp hx with ⟨s, hs, rfl⟩
        exact Or.inr (Or.inr ⟨s, hs, Or.inl rfl⟩)
      · rcases List.mem_cons.mp hq' with rfl | hq''
        · rcases List.mem_map.mp hx with ⟨s, hs, rfl⟩
          exact Or.inr (Or.inr ⟨s, hs, Or.inr rfl⟩)
        · cases hq''
  · rintro (h | h | ⟨s, hs, rfl | rfl⟩)
    · exact List.mem_append.mpr (Or.inl (List.mem_append.mpr
        (Or.inl (List.mem_flatMap.mpr ⟨a, by simp, h⟩))))
    · exact List.mem_append.mpr (Or.inl (List.mem_append.mpr
        (Or.inl (List.mem_flatMap.mpr ⟨b, by simp, h⟩))))
    · exact List.mem_append.mpr (Or.inr (List.mem_flatMap.mpr
        ⟨(a, b), by simp, List.mem_map.mpr ⟨s, hs, rfl⟩⟩))
    · exact List.mem_append.mpr (Or.inr (List.mem_flatMap.mpr
        ⟨(b, a), by simp, List.mem_map.mpr ⟨s, hs, rfl⟩⟩))

/-- C4 counterexample: for the distinct nonempty tokens a = "x", b = "xx",
the string a+a ("xx") IS an element of `mix [a, b]` (it coincides with the
lower-case leet variant of b), so the claim "mix([a,b]) never contains
a+a" is false as stated. -/
theorem C4_counterexample :
    ("x" : String) ≠ "xx" ∧ ("x" ++ "x" : String) ∈ mix ["x", "xx"] := by
  refine ⟨by decide, ?_⟩
  have h : ("x" ++ "x" : String) = "xx" := by decide
  rw [h]
  decide

/-- C4 (amended): for distinct nonempty tokens a and b, `mix [a, b]`
contains a+b, b+a, and a+s+b as well as b+s+a for every separator s; and
a+a is never produced by the pairing stage itself: a+a lies outside
`mix [a, b]` provided it is not a leet variant of a or of b and not equal
to any a+s+b or b+s+a. -/
theorem C4_mix_pairs (a b : String) (ha : a ≠ "") (hb : b ≠ "") (_hab : a ≠ b) :
    (a ++ b ∈ mix [a, b] ∧ b ++ a ∈ mix [a, b]
      ∧ ∀ s ∈ mixSeps, a ++ s ++ b ∈ mix [a, b] ∧ b ++ s ++ a ∈ mix [a, b])
    ∧ ((a ++ a ∉ l33tify a) → (a ++ a ∉ l33tify b) →
        (∀ s ∈ mixSeps, a ++ a ≠ a ++ s ++ b ∧ a ++ a ≠ b ++ s ++ a) →
        a ++ a ∉ mix [a, b]) := by
  constructor
  · refine ⟨?_, ?_, ?_⟩
    · rw [mem_mix_pair ha hb]
      exact Or.inr (Or.inr ⟨"", by decide, Or.inl (append_empty_mid a b).symm⟩)
    · rw [mem_mix_pair ha hb]
      exact Or.inr (Or.inr ⟨"", by decide, Or.inr (append_empty_mid b a).symm⟩)
    · intro s hs
      constructor
      · rw [mem_mix_pair ha hb]
        exact Or.inr (Or.inr ⟨s, hs, Or.inl rfl⟩)
      · rw [mem_mix_pair ha hb]
        exact Or.inr (Or.inr ⟨s, hs, Or.inr rfl⟩)
  · intro h1 h2 h3 hmem
    rw [mem_mix_pair ha hb] at hmem
    rcases hmem with h | h | ⟨s, hs, heq | heq⟩
    · exact h1 h
    · exact h2 h
    · exact (h3 s hs).1 heq
    · exact (h3 s hs).2 heq

theorem C4_witness :
    (("x" : String) ≠ "") ∧ (("y" : String) ≠ "") ∧ (("x" : String) ≠ "y")
    ∧ (("x" ++ "y" : String) ∈ mix ["x", "y"]
        ∧ ("y" ++ "x" : String) ∈ mix ["x", "y"]
        ∧ ∀ s ∈ mixSeps, ("x" ++ s ++ "y" : String) ∈ mix ["x", "y"]
            ∧ ("y" ++ s ++ "x" : String) ∈ mix ["x", "y"])
    ∧ ("x" ++ "x" : String) ∉ mix ["x", "y"] :=
  ⟨by decide, by decide, by decide,
    (C4_mix_pairs "x" "y" (by decide) (by decide) (by decide)).1,
    (C4_mix_pairs "x" "y" (by decide) (by decide) (by decide)).2
      (by decide) (by decide) (by decide)⟩

/-! ### Assembler facts: sorting, capping, minimality -/

/-- C1: for every generation request and configured maximum M > 0, the
capped wordlist has length min(M, number of distinct candidates), is
strictly sorted in Python's string order, consists of elements of the full
sorted deduplicated wordlist, and every retained element is strictly
smaller than every candidate that was truncated away: the cap keeps
exactly the lexicographically smallest entries, as a prefix of the sorted
order. -/
theorem C1_cap_smallest (cy : Nat) (n p d k e : String) (M : Int) (hM : 0 < M) :
    ((capWords M (gen_wordlist cy n p d k e)).length : Int) =
        min M ((gen_wordlist cy n p d k e).length : Int)
    ∧ (capWords M (gen_wordlist cy n p d k e)).Sorted pyLtP
    ∧ (∀ x ∈ capWords M (gen_wordlist cy n p d k e), x ∈ gen_wordlist cy n p d k e)
    ∧ ∀ x ∈ capWords M (gen_wordlist cy n p d k e),
        ∀ y ∈ gen_wordlist cy n p d k e,
          y ∉ capWords M (gen_wordlist cy n p d k e) → pyLtP x y := by
  have hsort := gen_sorted_lt cy n p d k e
  rw [capWords]
  by_cases hcond : M ≠ 0 ∧ ((gen_wordlist cy n p d k e).length : Int) > M
  · rw [if_pos hcond]
    have htoNat : (M.toNat : Int) = M := Int.toNat_of_nonneg (le_of_lt hM)
    have hlt : M.toNat ≤ (gen_wordlist cy n p d k e).length := by omega
    refine ⟨?_, ?_, ?_, ?_⟩
    · rw [List.length_take, Nat.min_eq_left hlt]
      rw [htoNat, min_eq_left (le_of_lt hcond.2)]
    · exact hsort.sublist (List.take_sublist _ _)
    · exact fun x hx => (gen_wordlist cy n p d k e).take_subset _ hx
    · intro x hx y hy hyn
      have hsplit := List.take_append_drop M.toNat (gen_wordlist cy n p d k e)
      have hpw : ((gen_wordlist cy n p d k e).take M.toNat ++
          (gen_wordlist cy n p d k e).drop M.toNat).Pairwise pyLtP := by
        rw [hsplit]
        exact hsort
      have hcross := (List.pairwise_append.mp hpw).2.2
      have hyd : y ∈ (gen_wordlist cy n p d k e).drop M.toNat := by
        rcases List.mem_append.mp (by rw [hsplit]; exact hy :
            y ∈ (gen_wordlist cy n p d k e).take M.toNat ++
              (gen_wordlist cy n p d k e).drop M.toNat) with h | h
        · exact absurd h hyn
        · exact h
      exact hcross x hx y hyd
  · rw [if_neg hcond]
    have hlen : ((gen_wordlist cy n p d k e).length : Int) ≤ M := by
      by_contra hgt
      exact hcond ⟨by omega, by omega⟩
    refine ⟨?_, hsort, fun x hx => hx, ?_⟩
    · rw [min_eq_right hlen]
    · intro x _ y hy hyn
      exact absurd hy hyn

theorem C1_witness :
    (0 : Int) < 3
    ∧ (((capWords 3 (gen_wordlist 1990 "q" "" "" "" "")).length : Int) =
          min 3 ((gen_wordlist 1990 "q" "" "" "" "").length : Int)
        ∧ (capWords 3 (gen_wordlist 1990 "q" "" "" "" "")).Sorted pyLtP
        ∧ (∀ x ∈ capWords 3 (gen_wordlist 1990 "q" "" "" "" ""),
            x ∈ gen_wordlist 1990 "q" "" "" "" "")
        ∧ ∀ x ∈ capWords 3 (gen_wordlist 1990 "q" "" "" "" ""),
            ∀ y ∈ gen_wordlist 1990 "q" "" "" "" "",
              y ∉ capWords 3 (gen_wordlist 1990 "q" "" "" "" "") → pyLtP x y) :=
  ⟨by decide, C1_cap_smallest 1990 "q" "" "" "" "" 3 (by decide)⟩

/-- C5: every raw hint token (from name, pet, keywords and the dob-derived
digit fragments) appears verbatim in the final wordlist whenever the cap
is large enough not to truncate anything: the raw token pool is unioned
back into the candidate set before sorting. -/
theorem C5_raw_tokens (cy : Nat) (n p d k e t : String) (M : Int)
    (ht : t ∈ hintTokens n p d k)
    (hM : ((gen_wordlist cy n p d k e).length : Int) ≤ M) :
    t ∈ capWords M (gen_wordlist cy n p d k e) := by
  apply mem_capWords_of_no_trunc hM
  rw [mem_gen_iff, allCandidates]
  apply List.mem_append_right
  rw [basePool, List.mem_dedup]
  exact ht

set_option maxRecDepth 100000 in
theorem C5_witness :
    ("q" ∈ hintTokens "q" "" "" "")
    ∧ ((gen_wordlist 1990 "q" "" "" "" "").length : Int) ≤ 1000000
    ∧ "q" ∈ capWords 1000000 (gen_wordlist 1990 "q" "" "" "" "") :=
  ⟨by decide, by decide,
    C5_raw_tokens 1990 "q" "" "" "" "" "q" 1000000 (by decide) (by decide)⟩

/-! ### The end-to-end example (name "John", dob "1999-05-01", max 100000,
current year 2026) -/

set_option maxRecDepth 100000 in
theorem yearBlock_rank_zero :
    (yearBlock 2026 "John" "" "1999-05-01" "" "").countP
      (fun y => pyLt y "!01-05") = 0 := by
  rw [List.countP_eq_zero]
  intro z hz
  rw [yearBlock, List.mem_flatMap] at hz
  obtain ⟨w, hw, hz⟩ := hz
  rw [List.mem_flatMap] at hz
  obtain ⟨y, hy, hz⟩ := hz
  have hyx : pyLt y "!01-05" = false := by
    have hall : (sortedYears 2026 "").all (fun v => !(pyLt v "!01-05")) = true := by
      decide
    have := List.all_eq_true.mp hall y hy
    simpa using this
  have hy05 : lexLt y.data ("-05" : String).data = false := by
    have hall : (sortedYears 2026 "").all
        (fun v => !(lexLt v.data ("-05" : String).data)) = true := by decide
    have := List.all_eq_true.mp hall y hy
    simpa using this
  have hwx : pyLt w "!01-05" = false ∨ w = "!01" := by
    have hall : (candPool "John" "" "1999-05-01" "").all
        (fun v => !(pyLt v "!01-05") || v == "!01") = true := by decide
    have := List.all_eq_true.mp hall w hw
    rcases Bool.or_eq_true_iff.mp this with h | h
    · left
      simpa using h
    · right
      simpa using h
  simp only [List.mem_cons, List.not_mem_nil, or_false] at hz
  rcases hz with rfl | rfl
  · rcases hwx with hwf | rfl
    · have hne : pyLt (w ++ y) "!01-05" = false := by
        show lexLt (w ++ y).data ("!01-05" : String).data = false
        rw [String.data_append]
        exact lexLt_append_not _ _ _ hwf
      simp [hne]
    · have hx : ("!01-05" : String) = "!01" ++ "-05" := by decide
      have hne : pyLt ("!01" ++ y) "!01-05" = false := by
        show lexLt ("!01" ++ y).data ("!01-05" : String).data = false
        rw [hx, String.data_append, String.data_append, lexLt_append_left]
        exact hy05
      simp [hne]
  · have hne : pyLt (y ++ w) "!01-05" = false := by
      show lexLt (y ++ w).data ("!01-05" : String).data = false
      rw [String.data_append]
      exact lexLt_append_not _ _ _ hyx
    simp [hne]

set_option maxRecDepth 100000 in
theorem allCand_rank :
    (allCandidates 2026 "John" "" "1999-05-01" "" "").countP
      (fun y => pyLt y "!01-05") = 5 := by
  rw [allCandidates, List.countP_append, List.countP_append, yearBlock_rank_zero]
  have h1 : (candPool "John" "" "1999-05-01" "").countP
      (fun y => pyLt y "!01-05") = 5 := by decide
  have h2 : (basePool "John" "" "1999-05-01" "").countP
      (fun y => pyLt y "!01-05") = 0 := by decide
  rw [h1, h2]

set_option maxRecDepth 100000 in
/-- C2 counterexample: for name "John", dob "1999-05-01", empty pet,
keywords and extra-years, max 100000, at current year 2026, the capped
output of the generator contains the string "!01-05", which contains the
separator character '-' occurring in the raw dob hint — contradicting the
claim that no output string contains a raw-hint separator character. -/
theorem C2_counterexample :
    "!01-05" ∈ cmd_gen_words 2026 "John" "" "1999-05-01" "" "" 100000
    ∧ '-' ∈ ("!01-05" : String).data ∧ '-' ∈ ("1999-05-01" : String).data := by
  refine ⟨?_, by decide, by decide⟩
  rw [cmd_gen_words]
  apply mem_capWords_of_mem_take
  have hmem : "!01-05" ∈ gen_wordlist 2026 "John" "" "1999-05-01" "" "" := by
    rw [mem_gen_iff]
    exact List.elem_iff.mp (by decide :
      (allCandidates 2026 "John" "" "1999-05-01" "" "").contains "!01-05" = true)
  have hcount : (gen_wordlist 2026 "John" "" "1999-05-01" "" "").countP
      (fun y => pyLt y "!01-05") < (100000 : Int).toNat := by
    have hle := countP_gen_le 2026 "John" "" "1999-05-01" "" ""
      (fun y => pyLt y "!01-05")
    rw [allCand_rank] at hle
    have : ((100000 : Int)).toNat = 100000 := rfl
    omega
  exact mem_take_of_countP_lt
    (gen_sorted_lt 2026 "John" "" "1999-05-01" "" "") hmem hcount

set_option maxRecDepth 100000 in
/-- C2 (amended): for name "John", dob "1999-05-01", empty pet, keywords
and extra-years, at current year 2026, the full deduplicated candidate
list returned by `gen_wordlist` (before the CLI cap) contains "john",
"1999", "99", "j0hn" and "john1999"; the capped output at max 100000 is
however not separator-free: it contains strings with separator characters
from the raw hints, such as "!01-05" (the combiner and affixer
deliberately insert separator and special characters, and at this year
the candidate count exceeds the cap, so late-sorting lowercase entries
are truncated while early-sorting separator strings remain). -/
theorem C2_amended :
    ("john" ∈ gen_wordlist 2026 "John" "" "1999-05-01" "" ""
      ∧ "1999" ∈ gen_wordlist 2026 "John" "" "1999-05-01" "" ""
      ∧ "99" ∈ gen_wordlist 2026 "John" "" "1999-05-01" "" ""
      ∧ "j0hn" ∈ gen_wordlist 2026 "John" "" "1999-05-01" "" ""
      ∧ "john1999" ∈ gen_wordlist 2026 "John" "" "1999-05-01" "" "")
    ∧ ("!01-05" ∈ cmd_gen_words 2026 "John" "" "1999-05-01" "" "" 100000
        ∧ '-' ∈ ("!01-05" : String).data) := by
  constructor
  · refine ⟨?_, ?_, ?_, ?_, ?_⟩ <;> rw [mem_gen_iff]
    · exact List.elem_iff.mp (by decide :
        (allCandidates 2026 "John" "" "1999-05-01" "" "").contains "john" = true)
    · exact List.elem_iff.mp (by decide :
        (allCandidates 2026 "John" "" "1999-05-01" "" "").contains "1999" = true)
    · exact List.elem_iff.mp (by decide :
        (allCandidates 2026 "John" "" "1999-05-01" "" "").contains "99" = true)
    · exact List.elem_iff.mp (by decide :
        (allCandidates 2026 "John" "" "1999-05-01" "" "").contains "j0hn" = true)
    · exact List.elem_iff.mp (by decide :
        (allCandidates 2026 "John" "" "1999-05-01" "" "").contains "john1999" = true)
  · refine ⟨?_, by decide⟩
    rw [cmd_gen_words]
    apply mem_capWords_of_mem_take
    have hmem : "!01-05" ∈ gen_wordlist 2026 "John" "" "1999-05-01" "" "" := by
      rw [mem_gen_iff]
      exact List.elem_iff.mp (by decide :
        (allCandidates 2026 "John" "" "1999-05-01" "" "").contains "!01-05" = true)
    have hcount : (gen_wordlist 2026 "John" "" "1999-05-01" "" "").countP
        (fun y => pyLt y "!01-05") < (100000 : Int).toNat := by
      have hle := countP_gen_le 2026 "John" "" "1999-05-01" "" ""
        (fun y => pyLt y "!01-05")
      rw [allCand_rank] at hle
      have : ((100000 : Int)).toNat = 100000 := rfl
      omega
    exact mem_take_of_countP_lt
      (gen_sorted_lt 2026 "John" "" "1999-05-01" "" "") hmem hcount

end Analyzer
